import Mathlib

/-!
Verification of the tracker repository's aggregation layer.

Time instants are modelled as integer epoch milliseconds (JavaScript `Date`
values are integer millisecond timestamps; the model takes local time equal
to UTC).  Fractional second counts, which the code stores as JavaScript
numbers and rounds only at output time, are modelled as rationals.
-/

namespace Tracker

/-- A half-open time range `[start, stop)` in epoch milliseconds.  This models
both the `{start, end}` segment objects of `splitByIdle` and the idle ranges
built from `idle_periods` rows. -/
structure Seg where
  start : ℤ
  stop : ℤ
deriving DecidableEq, Repr

/-- The set of integer instants covered by a segment. -/
def segPoints (s : Seg) : Finset ℤ := Finset.Ico s.start s.stop

/-- The set of integer instants covered by any segment of a list. -/
def listPoints (l : List Seg) : Finset ℤ :=
  l.foldr (fun s acc => segPoints s ∪ acc) ∅

/-- Total length (in ms) of a list of segments. -/
def sumLen (l : List Seg) : ℤ :=
  (l.map (fun s => s.stop - s.start)).sum

/-- One step of the inner loop of `splitByIdle`: the fragments of `segment`
that survive subtracting `idle`.  Mirrors the source: a segment disjoint from
the idle range is kept; otherwise the part before the idle range (when
`idle.start > segment.start`) and the part after it (when
`idle.end < segment.end`) are pushed. -/
def fragments (idle seg : Seg) : List Seg :=
  if idle.stop ≤ seg.start ∨ idle.start ≥ seg.stop then
    [seg]
  else
    (if idle.start > seg.start then [⟨seg.start, idle.start⟩] else []) ++
    (if idle.stop < seg.stop then [⟨idle.stop, seg.stop⟩] else [])

/-- One pass of the outer loop of `splitByIdle`: subtract one idle range from
every current segment, keeping the emission order of the source's `for` loop. -/
def subtractIdle (idle : Seg) (segments : List Seg) : List Seg :=
  segments.flatMap (fragments idle)

/-- The idle ranges are sorted by start time before use
(`.sort((a, b) => a.start.getTime() - b.start.getTime())`). -/
def sortIdles (idles : List Seg) : List Seg :=
  idles.insertionSort (fun a b => a.start ≤ b.start)

/-- The body of `splitByIdle` as written in the source: start from the single
segment `[segmentStart, segmentEnd)`, subtract each idle range in turn, and
finally keep only segments with `end > start`.  (The source's early `break`
when the segment list becomes empty does not change the result: subtracting
from an empty list yields an empty list.) -/
def splitByIdleRaw (segmentStart segmentEnd : ℤ) (idleRanges : List Seg) : List Seg :=
  (idleRanges.foldl (fun segments idle => subtractIdle idle segments)
      [⟨segmentStart, segmentEnd⟩]).filter
    (fun seg => seg.start < seg.stop)

/-- `splitByIdle` as used by `getTrackerHourlyActivityForDate`: the idle rows
are filtered to ranges with `end > start` and sorted by start time before the
subtraction loop runs. -/
def splitByIdle (segmentStart segmentEnd : ℤ) (idles : List Seg) : List Seg :=
  splitByIdleRaw segmentStart segmentEnd
    (sortIdles (idles.filter (fun r => r.start < r.stop)))

/-- The part of the window `[s, e)` covered by the idle intervals, in ms.
This is the "removed overlap" of the specification. -/
def removedOverlap (s e : ℤ) (idles : List Seg) : ℤ :=
  ((Finset.Ico s e) ∩ listPoints idles).card

/-- Strict separation between segments: `a` ends strictly before `b` starts. -/
def SegLT (a b : Seg) : Prop := a.stop < b.start

instance : DecidableRel SegLT := fun a b => by unfold SegLT; infer_instance

/-- The running invariant of the subtraction loop: all segments lie inside
`[lo, hi]`, are well-oriented, and are strictly separated in order. -/
def SegsInv (lo hi : ℤ) (l : List Seg) : Prop :=
  (∀ f ∈ l, lo ≤ f.start ∧ f.stop ≤ hi ∧ f.start ≤ f.stop) ∧ l.Pairwise SegLT

/-- Start of the calendar hour containing `t` (the effect of
`setMinutes(0, 0, 0)` on a `Date`, with local time taken as UTC). -/
def hourStartOf (t : ℤ) : ℤ := t - Int.emod t 3600000

/-- The cursor loop shared by `addRangeToMap` and the per-row loop of
`getTrackerHourlyActivityForDate`: walk from `cursor` to `rangeEnd`, clipping
at each next hour boundary.  `fuel` is a termination bound; each iteration
advances the cursor by at least one millisecond, so `(rangeEnd - cursor).toNat`
iterations always suffice. -/
def hourLoop : ℕ → ℤ → ℤ → List Seg
  | 0, _, _ => []
  | fuel + 1, cursor, rangeEnd =>
    if cursor < rangeEnd then
      let hourEnd := hourStartOf cursor + 3600000
      let segmentEnd := min rangeEnd hourEnd
      ⟨cursor, segmentEnd⟩ :: hourLoop fuel segmentEnd rangeEnd
    else []

/-- Decompose `[rangeStart, rangeEnd)` into hour-clipped sub-ranges. -/
def splitHours (rangeStart rangeEnd : ℤ) : List Seg :=
  hourLoop (rangeEnd - rangeStart).toNat rangeStart rangeEnd

/-- `value.toString().padStart(2, '0')` for the small field values produced by
the calendar conversion. -/
def pad (value : ℤ) : String :=
  if value < 10 then "0" ++ toString value else toString value

/-- Gregorian calendar date from a day number relative to 1970-01-01
(Howard Hinnant's `civil_from_days`; models `getFullYear`/`getMonth`/`getDate`
with local time taken as UTC). -/
def civilFromDays (dayNumber : ℤ) : ℤ × ℤ × ℤ :=
  let z := dayNumber + 719468
  let era := Int.ediv z 146097
  let doe := z - era * 146097
  let yoe := Int.ediv (doe - Int.ediv doe 1460 + Int.ediv doe 36524 - Int.ediv doe 146096) 365
  let y := yoe + era * 400
  let doy := doe - (365 * yoe + Int.ediv yoe 4 - Int.ediv yoe 100)
  let mp := Int.ediv (5 * doy + 2) 153
  let d := doy - Int.ediv (153 * mp + 2) 5 + 1
  let m := mp + (if mp < 10 then 3 else -9)
  (y + (if m ≤ 2 then 1 else 0), m, d)

/-- `formatHour`: the `YYYY-MM-DD HH:00` bucket key of the instant `t`. -/
def formatHour (t : ℤ) : String :=
  let day := Int.ediv t 86400000
  let ymd := civilFromDays day
  let hour := Int.emod (Int.ediv t 3600000) 24
  toString ymd.1 ++ "-" ++ pad ymd.2.1 ++ "-" ++ pad ymd.2.2 ++ " " ++ pad hour ++ ":00"

/-- `map.get(key) ?? d` on a JavaScript `Map` modelled as an insertion-ordered
association list. -/
def alistGetD {α : Type} (m : List (String × α)) (key : String) (d : α) : α :=
  match m.find? (fun p => p.1 == key) with
  | some p => p.2
  | none => d

/-- `map.set(key, v)`: updates in place (keeping the key's position) or
appends a new entry, exactly like a JavaScript `Map`. -/
def alistSet {α : Type} (m : List (String × α)) (key : String) (v : α) : List (String × α) :=
  if m.any (fun p => p.1 == key) then
    m.map (fun p => if p.1 == key then (key, v) else p)
  else m ++ [(key, v)]

/-- `addRangeToMap`: credit each hour-clipped part of `[rangeStart, rangeEnd)`
to its hour bucket, in seconds.  (`formatHour` applied to the segment start
equals the source's `formatHour(hourStart)`, as the key only depends on the
hour containing the instant.) -/
def addRangeToMap (map : List (String × ℚ)) (rangeStart rangeEnd : ℤ) :
    List (String × ℚ) :=
  (splitHours rangeStart rangeEnd).foldl
    (fun m seg =>
      let durationMs : ℤ := seg.stop - seg.start
      if durationMs > 0 then
        let hourKey := formatHour seg.start
        alistSet m hourKey (alistGetD m hourKey 0 + (durationMs : ℚ) / 1000)
      else m)
    map

/-- The body of the `while (cursor < end)` loop of
`getTrackerHourlyActivityForDate` for one activity row: split the row's range
at hour boundaries, remove idle time from each hour-clipped part, and credit
each surviving fragment to `(appName, hour bucket)`. -/
def processRow (idleRanges : List Seg) (m : List (String × List (String × ℚ)))
    (appName : String) (start rangeEnd : ℤ) : List (String × List (String × ℚ)) :=
  (splitHours start rangeEnd).foldl
    (fun m seg =>
      (splitByIdleRaw seg.start seg.stop idleRanges).foldl
        (fun m active =>
          let segmentMs : ℤ := active.stop - active.start
          if segmentMs ≤ 0 then m
          else
            let secondsInSegment := (segmentMs : ℚ) / 1000
            let hourKey := formatHour active.start
            let hourMap := alistGetD m appName []
            let hourMap := alistSet hourMap hourKey (alistGetD hourMap hourKey 0 + secondsInSegment)
            alistSet m appName hourMap)
        m)
    m

/-- A row of `activity_log` as read by `getTrackerHourlyActivityForDate`:
`timestamp` is `none` for a null or empty value, `duration` is `none` when the
stored value is missing or not a number. -/
structure ActivityRow where
  timestamp : Option ℤ
  app_name : Option String
  duration : Option ℤ
deriving DecidableEq, Repr

/-- A row of `idle_periods` (both endpoints may be null). -/
structure IdleRow where
  start_time : Option ℤ
  end_time : Option ℤ
deriving DecidableEq, Repr

/-- One element of the `HourlyActivity[]` result. -/
structure HourlyActivity where
  hour : String
  appName : String
  duration : ℤ
deriving DecidableEq, Repr

/-- `Math.round`: round half away from zero upward (JavaScript rounds `.5`
toward positive infinity). -/
def jsRound (q : ℚ) : ℤ := ⌊q + 1 / 2⌋

/-- The idle ranges of `getTrackerHourlyActivityForDate`: rows with both
endpoints set, kept only when `end > start`, sorted by start time. -/
def idleRangesOf (idleRows : List IdleRow) : List Seg :=
  sortIdles ((idleRows.filterMap (fun row =>
      match row.start_time, row.end_time with
      | some s, some e => some (⟨s, e⟩ : Seg)
      | _, _ => none)).filter (fun r => r.start < r.stop))

/-- Lexicographic comparison by code point, the effect of
`a.localeCompare(b) < 0` on the all-ASCII digit/punctuation bucket keys. -/
def strLtL : List Char → List Char → Bool
  | [], [] => false
  | [], _ :: _ => true
  | _ :: _, [] => false
  | a :: as, b :: bs =>
    if a.toNat < b.toNat then true
    else if b.toNat < a.toNat then false
    else strLtL as bs

/-- String comparison used when sorting bucket keys. -/
def strLt (a b : String) : Bool := strLtL a.data b.data

/-- The output comparator of `getTrackerHourlyActivityForDate`: ascending by
bucket key, ties broken by descending duration
(`a.hour.localeCompare(b.hour)`, else `b.duration - a.duration`). -/
def hourAsc (a b : HourlyActivity) : Prop :=
  strLt a.hour b.hour = true ∨ (a.hour = b.hour ∧ b.duration ≤ a.duration)

instance : DecidableRel hourAsc := fun a b => by unfold hourAsc; infer_instance

/-- The ordering produced by `ORDER BY hour DESC, total_duration DESC` in
`getTrackerHourlyActivity`: descending by bucket key, ties broken by
descending duration. -/
def hourDescTracker (a b : HourlyActivity) : Prop :=
  strLt b.hour a.hour = true ∨ (a.hour = b.hour ∧ b.duration ≤ a.duration)

instance : DecidableRel hourDescTracker := fun a b => by unfold hourDescTracker; infer_instance

/-- `getTrackerHourlyActivityForDate`, after the two date-range queries: build
the per-app hourly map (idle-subtracted), the idle hourly map, flatten both
with `Math.round` applied per bucket, and sort ascending by bucket key with
ties by descending duration. -/
def processRowGuarded (idleRanges : List Seg)
    (m : List (String × List (String × ℚ))) (row : ActivityRow) :
    List (String × List (String × ℚ)) :=
  let durationSeconds := row.duration.getD 0
  match row.timestamp with
  | none => m
  | some ts =>
    if durationSeconds ≤ 0 then m
    else
      let appName := match row.app_name with
        | none => "Unknown"
        | some a => if a = "" then "Unknown" else a
      processRow idleRanges m appName ts (ts + durationSeconds * 1000)

def getTrackerHourlyActivityForDate (results : List ActivityRow)
    (idleRows : List IdleRow) : List HourlyActivity :=
  let idleRanges := idleRangesOf idleRows
  let appHourlyMap := results.foldl (processRowGuarded idleRanges) []
  let idleHourlyMap := idleRanges.foldl
    (fun m idle => addRangeToMap m idle.start idle.stop) []
  let hourlyData :=
    (appHourlyMap.flatMap (fun ap =>
      ap.2.map (fun hd => (⟨hd.1, ap.1, jsRound hd.2⟩ : HourlyActivity)))) ++
    (idleHourlyMap.filterMap (fun hd =>
      if hd.2 > 0 then some (⟨hd.1, "Idle", jsRound hd.2⟩ : HourlyActivity) else none))
  hourlyData.insertionSort hourAsc

/-- A non-null row of `activity_log` as consumed by the grouping query of
`getTrackerHourlyActivity`. -/
structure TrackerLogRow where
  timestamp : ℤ
  app_name : String
  duration : ℤ
deriving DecidableEq, Repr

/-- `getTrackerHourlyActivity`: the SQL
`SELECT strftime('%Y-%m-%d %H:00', timestamp), app_name, SUM(duration) ...
GROUP BY hour, app_name ORDER BY hour DESC, total_duration DESC` over the
fetched rows. -/
def getTrackerHourlyActivity (rows : List TrackerLogRow) : List HourlyActivity :=
  let grouped : List ((String × String) × ℤ) := rows.foldl
    (fun m row =>
      let key := (formatHour row.timestamp, row.app_name)
      if m.any (fun p => p.1 == key) then
        m.map (fun p => if p.1 == key then (p.1, p.2 + row.duration) else p)
      else m ++ [(key, row.duration)])
    []
  (grouped.map (fun kv => (⟨kv.1.1, kv.1.2, kv.2⟩ : HourlyActivity))).insertionSort
    hourDescTracker

/-- An `input_metrics` row as consumed by `getFocusSessions`. -/
structure InputMetric where
  timestamp : ℤ
  keyPresses : ℤ
deriving DecidableEq, Repr

/-- An `activity_log` row as consumed by the `DISTINCT app_name` lookup. -/
structure ActivityLogRow where
  timestamp : ℤ
  app_name : String
deriving DecidableEq, Repr

/-- An emitted focus session. -/
structure FocusSession where
  startTime : ℤ
  endTime : ℤ
  duration : ℚ
  keystrokes : ℤ
  apps : List String
deriving DecidableEq, Repr

/-- The in-progress session accumulator (`current`). -/
structure CurrentSession where
  start : ℤ
  stop : ℤ
  keystrokes : ℤ
deriving DecidableEq, Repr

/-- `SELECT DISTINCT app_name FROM activity_log WHERE timestamp BETWEEN ...`:
distinct applications active during the closed session window. -/
def sessionApps (activityLog : List ActivityLogRow) (startT stopT : ℤ) : List String :=
  ((activityLog.filter (fun r => startT ≤ r.timestamp ∧ r.timestamp ≤ stopT)).map
    (fun r => r.app_name)).dedup

/-- Closing the current session: emit it only when its duration (seconds,
`(end - start) / 1000`) is at least 600. -/
def closeSession (activityLog : List ActivityLogRow) (sessions : List FocusSession)
    (current : CurrentSession) : List FocusSession :=
  let duration : ℚ := ((current.stop - current.start : ℤ) : ℚ) / 1000
  if duration ≥ 600 then
    sessions ++ [⟨current.start, current.stop, duration, current.keystrokes,
      sessionApps activityLog current.start current.stop⟩]
  else sessions

/-- One step of the `for (const metric of metrics)` loop of
`getFocusSessions`.  The source hardcodes `MAX_GAP = 5 * 60 * 1000`; the gap
threshold is a parameter here so that policy variants can be stated. -/
def focusStep (maxGapMs : ℤ) (activityLog : List ActivityLogRow)
    (state : List FocusSession × Option CurrentSession) (metric : InputMetric) :
    List FocusSession × Option CurrentSession :=
  match state.2 with
  | none => (state.1, some ⟨metric.timestamp, metric.timestamp, metric.keyPresses⟩)
  | some current =>
    let gap := metric.timestamp - current.stop
    if gap ≤ maxGapMs then
      (state.1, some ⟨current.start, metric.timestamp, current.keystrokes + metric.keyPresses⟩)
    else
      (closeSession activityLog state.1 current,
        some ⟨metric.timestamp, metric.timestamp, metric.keyPresses⟩)

/-- The focus-session detector with an explicit gap threshold: fold over the
chronologically ordered samples, close the final in-progress session, and
sort the result by descending duration. -/
def detectSessions (maxGapMs : ℤ) (activityLog : List ActivityLogRow)
    (metrics : List InputMetric) : List FocusSession :=
  let folded := metrics.foldl (focusStep maxGapMs activityLog) ([], none)
  let sessions := match folded.2 with
    | none => folded.1
    | some current => closeSession activityLog folded.1 current
  sessions.insertionSort (fun a b => b.duration ≤ a.duration)

/-- `getFocusSessions` as in the source: `MAX_GAP = 5 * 60 * 1000` ms. -/
def getFocusSessions (activityLog : List ActivityLogRow)
    (metrics : List InputMetric) : List FocusSession :=
  detectSessions (5 * 60 * 1000) activityLog metrics

/-- `l` starts with `pre` (`String.prototype.startsWith`). -/
def startsWithL (l pre : List Char) : Bool := l.take pre.length == pre

/-- `l` ends with `suf` (`String.prototype.endsWith`). -/
def endsWithL (l suf : List Char) : Bool :=
  suf.length ≤ l.length && l.drop (l.length - suf.length) == suf

/-- `title.replace(/ - Name$/, '')`: strip one trailing suffix if present. -/
def stripSuffixL (l suf : List Char) : List Char :=
  if endsWithL l suf then l.take (l.length - suf.length) else l

/-- `title.includes(pat)`. -/
def containsL (pat : List Char) : List Char → Bool
  | [] => startsWithL [] pat
  | c :: rest => startsWithL (c :: rest) pat || containsL pat rest

/-- Worker for `splitOnL`; `fuel` bounds the scan, one unit per character. -/
def splitOnGo (sep : List Char) : ℕ → List Char → List Char → List (List Char)
  | 0, _, acc => [acc.reverse]
  | _ + 1, [], acc => [acc.reverse]
  | fuel + 1, c :: rest, acc =>
    if startsWithL (c :: rest) sep then
      acc.reverse :: splitOnGo sep fuel ((c :: rest).drop sep.length) []
    else
      splitOnGo sep fuel rest (c :: acc)

/-- `String.prototype.split(sep)`: left-to-right, non-overlapping. -/
def splitOnL (sep l : List Char) : List (List Char) :=
  if sep == [] then [l] else splitOnGo sep (l.length + 1) l []

/-- The capture of `/\(([^)]+)\)$/`: the title ends with `)` and, inside, a
`(` is followed by one or more non-`)` characters up to that final `)`.  The
leftmost such `(` is the first `(` after the last other `)`. -/
def parenContent (l : List Char) : Option (List Char) :=
  if l.getLast? == some ')' then
    let body := l.dropLast
    let afterClose := (splitOnL [')'] body).getLastD []
    let content := List.intercalate ['('] (splitOnL ['('] afterClose).tail
    if content == [] then none else some content
  else none

/-- `title.replace(/^https?:\/\/(www\.)?/, '')`. -/
def stripProtocol (l : List Char) : List Char :=
  if startsWithL l "http://".data then
    let rest := l.drop 7
    if startsWithL rest "www.".data then rest.drop 4 else rest
  else if startsWithL l "https://".data then
    let rest := l.drop 8
    if startsWithL rest "www.".data then rest.drop 4 else rest
  else l

/-- `title.replace(/\/.*$/, '')`: cut at the first `/`. -/
def stripPath (l : List Char) : List Char := (splitOnL ['/'] l).headD l

/-- `title.trim()`. -/
def trimL (l : List Char) : List Char :=
  ((l.dropWhile Char.isWhitespace).reverse.dropWhile Char.isWhitespace).reverse

/-- The six browser suffixes stripped in order by `extractDomain`. -/
def browserSuffixes : List (List Char) :=
  [" - Google Chrome".data, " - Chrome".data, " - Mozilla Firefox".data,
   " - Firefox".data, " - Microsoft Edge".data, " - Edge".data]

/-- `extractDomain` on the character list of the window title.  Note the
parenthesis rule is applied to the title that results from the delimiter
rules, not only when both delimiters are absent. -/
def extractDomainL (windowTitle : List Char) : List Char :=
  let title := browserSuffixes.foldl stripSuffixL windowTitle
  let title :=
    if containsL " | ".data title then (splitOnL " | ".data title).getLastD []
    else if containsL " - ".data title then (splitOnL " - ".data title).getLastD []
    else title
  let title := (parenContent title).getD title
  trimL (stripPath (stripProtocol title))

/-- `extractDomain(windowTitle)`; the final `return title || 'Unknown'`. -/
def extractDomain (windowTitle : String) : String :=
  let title := extractDomainL windowTitle.data
  if title == [] then "Unknown" else ⟨title⟩

/-- Stage 1 of the specification's reading of the normalizer: strip the
trailing browser suffixes. -/
def stripBrowserSuffix (t : List Char) : List Char :=
  browserSuffixes.foldl stripSuffixL t

/-- Stage 2: segment after the last `" | "`, else after the last `" - "`,
else the unchanged title. -/
def delimiterSegment (t : List Char) : List Char :=
  if containsL " | ".data t then (splitOnL " | ".data t).getLastD []
  else if containsL " - ".data t then (splitOnL " - ".data t).getLastD []
  else t

/-- Stage 3: content of a trailing parenthesized group, when one is present. -/
def parenSegment (t : List Char) : List Char :=
  (parenContent t).getD t

/-- Stage 4: strip protocol and `www.`, cut the path, trim. -/
def cleanupLabel (t : List Char) : List Char :=
  trimL (stripPath (stripProtocol t))

/-- The normalizer as the amended specification words it: browser suffix,
then delimiter segment, then (on that segment) trailing parenthesized group,
then cleanup, with empty mapped to `"Unknown"`. -/
def extractDomainSpec (windowTitle : String) : String :=
  let r := cleanupLabel (parenSegment (delimiterSegment (stripBrowserSuffix windowTitle.data)))
  if r == [] then "Unknown" else (⟨r⟩ : String)

/-- The normalizer as the original claim words it: the parenthesized-group
rule fires only when neither delimiter is present. -/
def extractDomainClaim (windowTitle : String) : String :=
  let t := stripBrowserSuffix windowTitle.data
  let r :=
    if containsL " | ".data t then (splitOnL " | ".data t).getLastD []
    else if containsL " - ".data t then (splitOnL " - ".data t).getLastD []
    else parenSegment t
  let r := cleanupLabel r
  if r == [] then "Unknown" else (⟨r⟩ : String)

@[simp] theorem listPoints_nil : listPoints [] = ∅ := rfl

@[simp] theorem listPoints_cons (s : Seg) (l : List Seg) :
    listPoints (s :: l) = segPoints s ∪ listPoints l := rfl

theorem mem_listPoints {t : ℤ} {l : List Seg} :
    t ∈ listPoints l ↔ ∃ s ∈ l, t ∈ segPoints s := by
  induction l with
  | nil => simp
  | cons a l ih => simp [ih]

theorem listPoints_append (l₁ l₂ : List Seg) :
    listPoints (l₁ ++ l₂) = listPoints l₁ ∪ listPoints l₂ := by
  induction l₁ with
  | nil => simp
  | cons a l ih => simp [ih, Finset.union_assoc]

/-- The fragments of a segment cover exactly the part of the segment not
covered by the idle range. -/
theorem fragments_points (idle seg : Seg) :
    listPoints (fragments idle seg) = segPoints seg \ segPoints idle := by
  ext t
  simp only [fragments]
  split_ifs <;>
    simp [listPoints_append, listPoints, segPoints, Finset.mem_Ico, not_or] <;>
    omega

theorem subtractIdle_points (idle : Seg) (segs : List Seg) :
    listPoints (subtractIdle idle segs) = listPoints segs \ segPoints idle := by
  induction segs with
  | nil => simp [subtractIdle]
  | cons a l ih =>
    simp only [subtractIdle, List.flatMap_cons, listPoints_append,
      listPoints_cons, fragments_points]
    rw [subtractIdle] at ih
    rw [ih, Finset.union_sdiff_distrib]

theorem foldl_subtract_points (idles : List Seg) (segs : List Seg) :
    listPoints (idles.foldl (fun segments idle => subtractIdle idle segments) segs) =
      listPoints segs \ listPoints idles := by
  induction idles generalizing segs with
  | nil => simp
  | cons a l ih =>
    simp only [List.foldl_cons, ih, subtractIdle_points, listPoints_cons]
    rw [sdiff_sdiff]
    simp [Finset.sup_eq_union]

theorem fragments_bounds (idle seg : Seg) (hseg : seg.start ≤ seg.stop) :
    ∀ f ∈ fragments idle seg,
      seg.start ≤ f.start ∧ f.stop ≤ seg.stop ∧ f.start ≤ f.stop := by
  intro f hf
  unfold fragments at hf
  split_ifs at hf <;> simp at hf <;> rcases hf with rfl | rfl <;>
    (refine ⟨?_, ?_, ?_⟩ <;> dsimp <;> omega)

theorem fragments_pairwise (idle seg : Seg) (hidle : idle.start < idle.stop) :
    (fragments idle seg).Pairwise SegLT := by
  unfold fragments
  split_ifs <;> simp [SegLT] <;> try omega

theorem mem_subtractIdle {f : Seg} {idle : Seg} {segs : List Seg} :
    f ∈ subtractIdle idle segs ↔ ∃ s ∈ segs, f ∈ fragments idle s := by
  simp [subtractIdle]

theorem subtractIdle_bounds (idle : Seg) (segs : List Seg)
    (hb : ∀ s ∈ segs, s.start ≤ s.stop) :
    ∀ f ∈ subtractIdle idle segs, ∃ s ∈ segs,
      s.start ≤ f.start ∧ f.stop ≤ s.stop ∧ f.start ≤ f.stop := by
  intro f hf
  obtain ⟨s, hs, hfs⟩ := mem_subtractIdle.mp hf
  exact ⟨s, hs, fragments_bounds idle s (hb s hs) f hfs⟩

theorem subtractIdle_pairwise (idle : Seg) (segs : List Seg)
    (hidle : idle.start < idle.stop)
    (hb : ∀ s ∈ segs, s.start ≤ s.stop)
    (hp : segs.Pairwise SegLT) :
    (subtractIdle idle segs).Pairwise SegLT := by
  induction segs with
  | nil => simp [subtractIdle]
  | cons a l ih =>
    rw [List.pairwise_cons] at hp
    have hb' : ∀ s ∈ l, s.start ≤ s.stop := fun s hs => hb s (List.mem_cons_of_mem a hs)
    have tail := ih hb' hp.2
    show ((fragments idle a) ++ subtractIdle idle l).Pairwise SegLT
    rw [List.pairwise_append]
    refine ⟨fragments_pairwise idle a hidle, tail, ?_⟩
    intro x hx y hy
    obtain ⟨s, hs, hys⟩ := mem_subtractIdle.mp hy
    have hx' := fragments_bounds idle a (hb a (List.mem_cons_self a l)) x hx
    have hy' := fragments_bounds idle s (hb' s hs) y hys
    have has : SegLT a s := hp.1 s hs
    unfold SegLT at has ⊢
    omega

theorem segsInv_subtractIdle {lo hi : ℤ} {idle : Seg} {segs : List Seg}
    (hidle : idle.start < idle.stop) (h : SegsInv lo hi segs) :
    SegsInv lo hi (subtractIdle idle segs) := by
  obtain ⟨hb, hp⟩ := h
  constructor
  · intro f hf
    obtain ⟨s, hs, h1, h2, h3⟩ :=
      subtractIdle_bounds idle segs (fun s hs => (hb s hs).2.2) f hf
    have := hb s hs
    omega
  · exact subtractIdle_pairwise idle segs hidle (fun s hs => (hb s hs).2.2) hp

theorem segsInv_foldl {lo hi : ℤ} (idles : List Seg) (segs : List Seg)
    (hpos : ∀ i ∈ idles, i.start < i.stop) (h : SegsInv lo hi segs) :
    SegsInv lo hi (idles.foldl (fun segments idle => subtractIdle idle segments) segs) := by
  induction idles generalizing segs with
  | nil => exact h
  | cons a l ih =>
    exact ih (subtractIdle a segs) (fun i hi' => hpos i (List.mem_cons_of_mem a hi'))
      (segsInv_subtractIdle (hpos a (List.mem_cons_self a l)) h)

theorem segsInv_filter {lo hi : ℤ} {l : List Seg} (h : SegsInv lo hi l) :
    SegsInv lo hi (l.filter (fun seg => seg.start < seg.stop)) := by
  obtain ⟨hb, hp⟩ := h
  exact ⟨fun f hf => hb f (List.mem_of_mem_filter hf), hp.filter _⟩

/-- Dropping zero- or negative-length segments does not change the covered
instants. -/
theorem listPoints_filter_pos (l : List Seg) :
    listPoints (l.filter (fun seg => seg.start < seg.stop)) = listPoints l := by
  induction l with
  | nil => simp
  | cons a l ih =>
    by_cases h : a.start < a.stop
    · simp [List.filter_cons, h, ih]
    · have : segPoints a = ∅ := by
        unfold segPoints
        rw [Finset.Ico_eq_empty]
        omega
      simp [List.filter_cons, h, ih, this]

theorem listPoints_perm {l l' : List Seg} (h : l.Perm l') :
    listPoints l = listPoints l' := by
  ext t
  simp only [mem_listPoints]
  constructor
  · rintro ⟨s, hs, hts⟩; exact ⟨s, h.mem_iff.mp hs, hts⟩
  · rintro ⟨s, hs, hts⟩; exact ⟨s, h.mem_iff.mpr hs, hts⟩

theorem card_listPoints (l : List Seg)
    (hb : ∀ f ∈ l, f.start ≤ f.stop)
    (hp : l.Pairwise (fun a b => a.stop ≤ b.start)) :
    ((listPoints l).card : ℤ) = sumLen l := by
  induction l with
  | nil => simp [sumLen]
  | cons a l ih =>
    rw [List.pairwise_cons] at hp
    have hb' : ∀ f ∈ l, f.start ≤ f.stop := fun f hf => hb f (List.mem_cons_of_mem a hf)
    have hdisj : Disjoint (segPoints a) (listPoints l) := by
      rw [Finset.disjoint_left]
      intro t hta htl
      obtain ⟨f, hf, htf⟩ := mem_listPoints.mp htl
      have := hp.1 f hf
      unfold segPoints at hta htf
      rw [Finset.mem_Ico] at hta htf
      omega
    rw [listPoints_cons, Finset.card_union_of_disjoint hdisj]
    have ha := hb a (List.mem_cons_self a l)
    have hcard : ((segPoints a).card : ℤ) = a.stop - a.start := by
      unfold segPoints
      rw [Int.card_Ico]
      omega
    push_cast
    rw [hcard, ih hb' hp.2]
    simp [sumLen]

/-- Two lists of positive, strictly separated segments covering the same
instants are equal. -/
theorem canonical_eq : ∀ (l₁ l₂ : List Seg),
    (∀ f ∈ l₁, f.start < f.stop) → (∀ f ∈ l₂, f.start < f.stop) →
    l₁.Pairwise SegLT → l₂.Pairwise SegLT →
    listPoints l₁ = listPoints l₂ → l₁ = l₂
  | [], [], _, _, _, _, _ => rfl
  | [], b :: bs, _, h₂p, _, _, hpts => by
    exfalso
    have hb : b.start ∈ listPoints (b :: bs) := by
      rw [mem_listPoints]
      refine ⟨b, List.mem_cons_self b bs, ?_⟩
      unfold segPoints
      rw [Finset.mem_Ico]
      exact ⟨le_refl _, h₂p b (List.mem_cons_self b bs)⟩
    rw [← hpts] at hb
    simp at hb
  | a :: as, [], h₁p, _, _, _, hpts => by
    exfalso
    have ha : a.start ∈ listPoints (a :: as) := by
      rw [mem_listPoints]
      refine ⟨a, List.mem_cons_self a as, ?_⟩
      unfold segPoints
      rw [Finset.mem_Ico]
      exact ⟨le_refl _, h₁p a (List.mem_cons_self a as)⟩
    rw [hpts] at ha
    simp at ha
  | a :: as, b :: bs, h₁p, h₂p, h₁, h₂, hpts => by
    have hmem : ∀ t : ℤ, t ∈ listPoints (a :: as) ↔ t ∈ listPoints (b :: bs) :=
      fun t => by rw [hpts]
    have hap := h₁p a (List.mem_cons_self a as)
    have hbp := h₂p b (List.mem_cons_self b bs)
    rw [List.pairwise_cons] at h₁ h₂
    have htail₁ : ∀ t : ℤ, t ∈ listPoints as → a.stop < t := by
      intro t ht
      obtain ⟨f, hf, htf⟩ := mem_listPoints.mp ht
      have := h₁.1 f hf
      unfold segPoints at htf
      rw [Finset.mem_Ico] at htf
      unfold SegLT at this
      omega
    have htail₂ : ∀ t : ℤ, t ∈ listPoints bs → b.stop < t := by
      intro t ht
      obtain ⟨f, hf, htf⟩ := mem_listPoints.mp ht
      have := h₂.1 f hf
      unfold segPoints at htf
      rw [Finset.mem_Ico] at htf
      unfold SegLT at this
      omega
    have hmem₁ : ∀ t : ℤ,
        t ∈ listPoints (a :: as) ↔ (a.start ≤ t ∧ t < a.stop) ∨ t ∈ listPoints as := by
      intro t
      simp only [listPoints_cons, Finset.mem_union, segPoints, Finset.mem_Ico]
    have hmem₂ : ∀ t : ℤ,
        t ∈ listPoints (b :: bs) ↔ (b.start ≤ t ∧ t < b.stop) ∨ t ∈ listPoints bs := by
      intro t
      simp only [listPoints_cons, Finset.mem_union, segPoints, Finset.mem_Ico]
    have hstart : a.start = b.start := by
      rcases lt_trichotomy a.start b.start with h | h | h
      · exfalso
        have : a.start ∈ listPoints (b :: bs) :=
          (hmem a.start).mp ((hmem₁ a.start).mpr (Or.inl ⟨le_refl _, hap⟩))
        rcases (hmem₂ a.start).mp this with hcase | hcase
        · omega
        · have := htail₂ a.start hcase; omega
      · exact h
      · exfalso
        have : b.start ∈ listPoints (a :: as) :=
          (hmem b.start).mpr ((hmem₂ b.start).mpr (Or.inl ⟨le_refl _, hbp⟩))
        rcases (hmem₁ b.start).mp this with hcase | hcase
        · omega
        · have := htail₁ b.start hcase; omega
    have hstop : a.stop = b.stop := by
      rcases lt_trichotomy a.stop b.stop with h | h | h
      · exfalso
        have : a.stop ∈ listPoints (b :: bs) :=
          (hmem₂ a.stop).mpr (Or.inl ⟨by omega, h⟩)
        rcases (hmem₁ a.stop).mp ((hmem a.stop).mpr this) with hcase | hcase
        · omega
        · have := htail₁ a.stop hcase; omega
      · exact h
      · exfalso
        have : b.stop ∈ listPoints (a :: as) :=
          (hmem₁ b.stop).mpr (Or.inl ⟨by omega, h⟩)
        rcases (hmem₂ b.stop).mp ((hmem b.stop).mp this) with hcase | hcase
        · omega
        · have := htail₂ b.stop hcase; omega
    have hab : a = b := by
      cases a; cases b
      simp only at hstart hstop
      simp [hstart, hstop]
    have hpts' : listPoints as = listPoints bs := by
      ext t
      constructor
      · intro ht
        have h1 := htail₁ t ht
        rcases (hmem₂ t).mp ((hmem t).mp ((hmem₁ t).mpr (Or.inr ht))) with hcase | hcase
        · omega
        · exact hcase
      · intro ht
        have h1 := htail₂ t ht
        rcases (hmem₁ t).mp ((hmem t).mpr ((hmem₂ t).mpr (Or.inr ht))) with hcase | hcase
        · omega
        · exact hcase
    have htails : as = bs :=
      canonical_eq as bs (fun f hf => h₁p f (List.mem_cons_of_mem a hf))
        (fun f hf => h₂p f (List.mem_cons_of_mem b hf)) h₁.2 h₂.2 hpts'
    rw [hab, htails]

theorem hourStartOf_le (t : ℤ) : hourStartOf t ≤ t ∧ t < hourStartOf t + 3600000 := by
  unfold hourStartOf
  have h1 : 0 ≤ Int.emod t 3600000 := Int.emod_nonneg t (by norm_num)
  have h2 : Int.emod t 3600000 < 3600000 := Int.emod_lt_of_pos t (by norm_num)
  omega

theorem sumLen_cons (a : Seg) (l : List Seg) :
    sumLen (a :: l) = (a.stop - a.start) + sumLen l := by
  simp [sumLen]

/-- The hour-clipping loop conserves total length: the emitted hour-clipped
sub-ranges add up to the whole range. -/
theorem hourLoop_sum : ∀ (fuel : ℕ) (cursor rangeEnd : ℤ),
    cursor ≤ rangeEnd → (rangeEnd - cursor).toNat ≤ fuel →
    sumLen (hourLoop fuel cursor rangeEnd) = rangeEnd - cursor
  | 0, cursor, rangeEnd, h1, h2 => by
    have h3 : rangeEnd = cursor := by omega
    simp [hourLoop, sumLen, h3]
  | fuel + 1, cursor, rangeEnd, h1, h2 => by
    by_cases h : cursor < rangeEnd
    · have hb := hourStartOf_le cursor
      have h3 : cursor < min rangeEnd (hourStartOf cursor + 3600000) := by omega
      have h4 : min rangeEnd (hourStartOf cursor + 3600000) ≤ rangeEnd :=
        min_le_left _ _
      have ih := hourLoop_sum fuel (min rangeEnd (hourStartOf cursor + 3600000))
        rangeEnd h4 (by omega)
      simp only [hourLoop, if_pos h]
      rw [sumLen_cons, ih]
      dsimp
      omega
    · simp [hourLoop, if_neg h, sumLen]
      omega

theorem ratSum_eq (l : List Seg) :
    (l.map (fun seg => ((seg.stop - seg.start : ℤ) : ℚ) / 1000)).sum =
      (sumLen l : ℚ) / 1000 := by
  induction l with
  | nil => simp [sumLen]
  | cons a l ih =>
    rw [List.map_cons, List.sum_cons, ih, sumLen_cons]
    push_cast
    ring

theorem sortIdles_perm (l : List Seg) : (sortIdles l).Perm l :=
  List.perm_insertionSort _ l

theorem mem_sortIdles {x : Seg} {l : List Seg} : x ∈ sortIdles l ↔ x ∈ l := by
  unfold sortIdles
  exact List.mem_insertionSort _

theorem filteredIdles_pos (idles : List Seg) :
    ∀ i ∈ sortIdles (idles.filter (fun r => r.start < r.stop)), i.start < i.stop := by
  intro i hi
  rw [mem_sortIdles] at hi
  have := List.of_mem_filter hi
  simpa using this

theorem segsInv_init (s e : ℤ) (hse : s ≤ e) : SegsInv s e [⟨s, e⟩] := by
  constructor
  · intro f hf
    simp at hf
    subst hf
    dsimp
    omega
  · simp

theorem splitByIdle_inv (s e : ℤ) (hse : s ≤ e) (idles : List Seg) :
    SegsInv s e (splitByIdle s e idles) ∧
    (∀ f ∈ splitByIdle s e idles, f.start < f.stop) := by
  unfold splitByIdle splitByIdleRaw
  have hpos := filteredIdles_pos idles
  have hfold := segsInv_foldl _ [⟨s, e⟩] hpos (segsInv_init s e hse)
  refine ⟨segsInv_filter hfold, ?_⟩
  intro f hf
  have := List.of_mem_filter hf
  simpa using this

theorem splitByIdle_points (s e : ℤ) (idles : List Seg) :
    listPoints (splitByIdle s e idles) = Finset.Ico s e \ listPoints idles := by
  unfold splitByIdle splitByIdleRaw
  rw [listPoints_filter_pos, foldl_subtract_points]
  have h1 : listPoints [(⟨s, e⟩ : Seg)] = Finset.Ico s e := by
    simp [listPoints, segPoints]
  rw [h1]
  congr 1
  calc listPoints (sortIdles (idles.filter (fun r => r.start < r.stop)))
      = listPoints (idles.filter (fun r => r.start < r.stop)) :=
        listPoints_perm (sortIdles_perm _)
    _ = listPoints idles := listPoints_filter_pos idles

/-- C2: for every interval with `startTimestamp` and `durationSeconds ≥ 0`,
splitting it into hour buckets emits sub-interval overlaps whose sum equals
`durationSeconds` exactly, with no rounding loss at bucket boundaries
(including when `startTimestamp` falls exactly on an hour boundary), and a
zero duration yields an empty sequence. -/
theorem C2_split_conservation (startTimestamp durationSeconds : ℤ)
    (h : 0 ≤ durationSeconds) :
    ((splitHours startTimestamp (startTimestamp + durationSeconds * 1000)).map
        (fun seg => ((seg.stop - seg.start : ℤ) : ℚ) / 1000)).sum =
      (durationSeconds : ℚ) ∧
    (durationSeconds = 0 →
      splitHours startTimestamp (startTimestamp + durationSeconds * 1000) = []) := by
  constructor
  · rw [ratSum_eq]
    unfold splitHours
    rw [hourLoop_sum _ _ _ (by omega) (by omega)]
    have h2 : startTimestamp + durationSeconds * 1000 - startTimestamp =
        durationSeconds * 1000 := by ring
    rw [h2]
    push_cast
    field_simp
  · intro h0
    subst h0
    simp [splitHours, hourLoop]

theorem C2_split_conservation_witness :
    ((splitHours 1705361400000 (1705361400000 + 3600 * 1000)).map
        (fun seg => ((seg.stop - seg.start : ℤ) : ℚ) / 1000)).sum = (3600 : ℚ) :=
  (C2_split_conservation 1705361400000 3600 (by norm_num)).1

/-- C3: for every activity window `[activityStart, activityEnd)` and every
set of idle intervals, the idle-subtracted residue fragments are pairwise
non-overlapping, sorted, and contained in the window, and the total residue
length plus the length of the removed overlap (the part of the window covered
by idle intervals) equals `activityEnd - activityStart`. -/
theorem C3_idle_subtraction (activityStart activityEnd : ℤ)
    (idleIntervals : List Seg) (h : activityStart ≤ activityEnd) :
    (∀ f ∈ splitByIdle activityStart activityEnd idleIntervals,
        activityStart ≤ f.start ∧ f.stop ≤ activityEnd ∧ f.start < f.stop) ∧
    (splitByIdle activityStart activityEnd idleIntervals).Pairwise
      (fun a b => a.stop ≤ b.start) ∧
    sumLen (splitByIdle activityStart activityEnd idleIntervals) +
        removedOverlap activityStart activityEnd idleIntervals =
      activityEnd - activityStart := by
  obtain ⟨⟨hb, hp⟩, hpos⟩ := splitByIdle_inv _ _ h idleIntervals
  refine ⟨fun f hf => ⟨(hb f hf).1, (hb f hf).2.1, hpos f hf⟩,
    hp.imp (fun hab => le_of_lt hab), ?_⟩
  have hcard := card_listPoints _ (fun f hf => (hb f hf).2.2)
    (hp.imp (fun hab => le_of_lt hab))
  rw [← hcard, splitByIdle_points]
  unfold removedOverlap
  have h2 := Finset.card_sdiff_add_card_inter
    (Finset.Ico activityStart activityEnd) (listPoints idleIntervals)
  have hIco : (Finset.Ico activityStart activityEnd).card =
      (activityEnd - activityStart).toNat := Int.card_Ico _ _
  omega

theorem C3_idle_subtraction_witness :
    sumLen (splitByIdle 0 10 [⟨2, 5⟩]) + removedOverlap 0 10 [⟨2, 5⟩] = 10 - 0 :=
  (C3_idle_subtraction 0 10 [⟨2, 5⟩] (by norm_num)).2.2

/-- C4: for every activity window and every set of idle intervals, the result
of idle subtraction is the same for every ordering of the input idle
intervals, and a zero-length idle interval (`start == end`) has no effect on
the result. -/
theorem C4_idle_order_invariance (s e : ℤ) (h : s ≤ e)
    (idles idlesReordered : List Seg) (hperm : idles.Perm idlesReordered) (t : ℤ) :
    splitByIdle s e idles = splitByIdle s e idlesReordered ∧
    splitByIdle s e (⟨t, t⟩ :: idles) = splitByIdle s e idles := by
  constructor
  · obtain ⟨⟨hb1, hp1⟩, hpos1⟩ := splitByIdle_inv s e h idles
    obtain ⟨⟨hb2, hp2⟩, hpos2⟩ := splitByIdle_inv s e h idlesReordered
    apply canonical_eq _ _ hpos1 hpos2 hp1 hp2
    rw [splitByIdle_points, splitByIdle_points, listPoints_perm hperm]
  · unfold splitByIdle
    congr 2
    simp [List.filter_cons]

theorem C4_idle_order_invariance_witness :
    splitByIdle 0 10 [⟨2, 5⟩, ⟨7, 8⟩] = splitByIdle 0 10 [⟨7, 8⟩, ⟨2, 5⟩] ∧
    splitByIdle 0 10 [⟨3, 3⟩, ⟨2, 5⟩, ⟨7, 8⟩] = splitByIdle 0 10 [⟨2, 5⟩, ⟨7, 8⟩] :=
  C4_idle_order_invariance 0 10 (by norm_num) [⟨2, 5⟩, ⟨7, 8⟩] [⟨7, 8⟩, ⟨2, 5⟩]
    (by decide) 3

set_option maxHeartbeats 1600000 in
unseal Rat.mul Rat.inv Rat.add Rat.sub in
/-- C1: one activity interval starting 2024-01-15T23:30:00 with duration
3600 s for `editor.exe`, with one idle period 23:45–23:50 inside it, yields
hourly buckets: (`2024-01-15 23:00`, `editor.exe`) = 1500 s,
(`2024-01-16 00:00`, `editor.exe`) = 1800 s, and
(`2024-01-15 23:00`, `Idle`) = 300 s. -/
theorem C1_end_to_end_hourly :
    getTrackerHourlyActivityForDate
        [⟨some 1705361400000, some "editor.exe", some 3600⟩]
        [⟨some 1705362300000, some 1705362600000⟩] =
      [⟨"2024-01-15 23:00", "editor.exe", 1500⟩,
       ⟨"2024-01-15 23:00", "Idle", 300⟩,
       ⟨"2024-01-16 00:00", "editor.exe", 1800⟩] := by
  decide

/-- C8: running the hourly aggregator twice over the same fixed, immutable
set of activity rows and idle rows yields identical output: in this model the
aggregation is a pure, deterministic function of its input rows. -/
theorem C8_aggregator_deterministic (results : List ActivityRow)
    (idleRows : List IdleRow) :
    getTrackerHourlyActivityForDate results idleRows =
      getTrackerHourlyActivityForDate results idleRows := rfl

theorem processRowGuarded_skip (idleRanges : List Seg)
    (m : List (String × List (String × ℚ))) (row : ActivityRow)
    (h : row.timestamp = none ∨ row.duration = none ∨
      ∃ d, row.duration = some d ∧ d ≤ 0) :
    processRowGuarded idleRanges m row = m := by
  rcases h with h | h | ⟨d, hd, hdle⟩
  · simp [processRowGuarded, h]
  · cases hts : row.timestamp with
    | none => simp [processRowGuarded, hts]
    | some ts => simp [processRowGuarded, hts, h]
  · cases hts : row.timestamp with
    | none => simp [processRowGuarded, hts]
    | some ts => simp [processRowGuarded, hts, hd, hdle]

/-- C9: an activity row whose duration is missing, non-numeric (modelled as
`none`), zero, or negative — or whose timestamp is null — contributes zero
seconds to every bucket of the hourly aggregation: removing such a row from
the input leaves the output unchanged, and processing it is total (never
throws). -/
theorem C9_invalid_duration_ignored (pre post : List ActivityRow)
    (idleRows : List IdleRow) (row : ActivityRow)
    (h : row.timestamp = none ∨ row.duration = none ∨
      ∃ d, row.duration = some d ∧ d ≤ 0) :
    getTrackerHourlyActivityForDate (pre ++ row :: post) idleRows =
      getTrackerHourlyActivityForDate (pre ++ post) idleRows := by
  have hskip : ∀ m, processRowGuarded (idleRangesOf idleRows) m row = m :=
    fun m => processRowGuarded_skip _ m row h
  simp only [getTrackerHourlyActivityForDate, List.foldl_append, List.foldl_cons, hskip]

theorem C9_invalid_duration_ignored_witness :
    getTrackerHourlyActivityForDate [⟨none, none, none⟩] [] =
      getTrackerHourlyActivityForDate [] [] :=
  C9_invalid_duration_ignored [] [] [] ⟨none, none, none⟩ (Or.inl rfl)

theorem strLtL_nil_right : ∀ b : List Char, strLtL b [] = false
  | [] => rfl
  | _ :: _ => rfl

theorem strLtL_trans : ∀ a b c : List Char,
    strLtL a b = true → strLtL b c = true → strLtL a c = true
  | [], b, [], _, h2 => absurd h2 (by rw [strLtL_nil_right]; simp)
  | [], _ :: _, _ :: _, _, _ => rfl
  | [], [], _ :: _, h1, _ => by cases h1
  | _ :: _, [], _, h1, _ => by cases h1
  | _ :: _, _ :: _, [], _, h2 => by cases h2
  | a :: as, b :: bs, c :: cs, h1, h2 => by
    simp only [strLtL] at h1 h2 ⊢
    split_ifs at h1 h2 ⊢ with g1 g2 g3 g4 g5 g6
    all_goals first
      | rfl
      | omega
      | (exact strLtL_trans as bs cs h1 h2)
      | (exact absurd h1 (by simp))
      | (exact absurd h2 (by simp))

theorem strLtL_connex : ∀ a b : List Char,
    strLtL a b = false → strLtL b a = false → a = b
  | [], [], _, _ => rfl
  | [], _ :: _, h1, _ => by cases h1
  | _ :: _, [], _, h2 => by cases h2
  | a :: as, b :: bs, h1, h2 => by
    simp only [strLtL] at h1 h2
    split_ifs at h1 h2 with g1 g2 <;>
      first
        | simp at h1
        | simp at h2
        | (have hab : a = b := Char.eq_of_val_eq (by
            apply UInt32.toNat.inj
            simp only [Char.toNat] at g1 g2
            omega)
           rw [hab, strLtL_connex as bs h1 h2])

theorem strLt_connex (a b : String) (h1 : ¬ strLt a b = true)
    (h2 : ¬ strLt b a = true) : a = b := by
  rw [Bool.not_eq_true] at h1 h2
  have h3 := strLtL_connex a.data b.data h1 h2
  cases a
  cases b
  exact congrArg String.mk h3

theorem hourAsc_total : ∀ a b : HourlyActivity, hourAsc a b ∨ hourAsc b a := by
  intro a b
  unfold hourAsc
  by_cases h1 : strLt a.hour b.hour = true
  · exact Or.inl (Or.inl h1)
  · by_cases h2 : strLt b.hour a.hour = true
    · exact Or.inr (Or.inl h2)
    · have heq := strLt_connex _ _ h1 h2
      rcases le_total a.duration b.duration with hd | hd
      · exact Or.inr (Or.inr ⟨heq.symm, hd⟩)
      · exact Or.inl (Or.inr ⟨heq, hd⟩)

theorem hourAsc_trans : ∀ a b c : HourlyActivity,
    hourAsc a b → hourAsc b c → hourAsc a c := by
  intro a b c hab hbc
  unfold hourAsc at *
  unfold strLt at *
  rcases hab with h1 | ⟨h1, d1⟩ <;> rcases hbc with h2 | ⟨h2, d2⟩
  · exact Or.inl (strLtL_trans _ _ _ h1 h2)
  · exact Or.inl (h2 ▸ h1)
  · exact Or.inl (h1 ▸ h2)
  · exact Or.inr ⟨h1.trans h2, le_trans d2 d1⟩

theorem hourDescTracker_total : ∀ a b : HourlyActivity,
    hourDescTracker a b ∨ hourDescTracker b a := by
  intro a b
  unfold hourDescTracker
  by_cases h1 : strLt a.hour b.hour = true
  · exact Or.inr (Or.inl h1)
  · by_cases h2 : strLt b.hour a.hour = true
    · exact Or.inl (Or.inl h2)
    · have heq := strLt_connex _ _ h1 h2
      rcases le_total a.duration b.duration with hd | hd
      · exact Or.inr (Or.inr ⟨heq.symm, hd⟩)
      · exact Or.inl (Or.inr ⟨heq, hd⟩)

theorem hourDescTracker_trans : ∀ a b c : HourlyActivity,
    hourDescTracker a b → hourDescTracker b c → hourDescTracker a c := by
  intro a b c hab hbc
  unfold hourDescTracker at *
  unfold strLt at *
  rcases hab with h1 | ⟨h1, d1⟩ <;> rcases hbc with h2 | ⟨h2, d2⟩
  · exact Or.inl (strLtL_trans _ _ _ h2 h1)
  · exact Or.inl (h2 ▸ h1)
  · exact Or.inl (h1 ▸ h2)
  · exact Or.inr ⟨h1.trans h2, le_trans d2 d1⟩

/-- C6 (amended): the output of `getTrackerHourlyActivityForDate` is ordered
ascending by bucket key with ties broken by descending duration, while
`getTrackerHourlyActivity` (`ORDER BY hour DESC, total_duration DESC`) is
ordered descending by bucket key with ties broken by descending duration. -/
theorem C6_output_ordering :
    (∀ (results : List ActivityRow) (idleRows : List IdleRow),
      (getTrackerHourlyActivityForDate results idleRows).Sorted hourAsc) ∧
    (∀ rows : List TrackerLogRow,
      (getTrackerHourlyActivity rows).Sorted hourDescTracker) := by
  constructor
  · intro results idleRows
    haveI : IsTotal HourlyActivity hourAsc := ⟨hourAsc_total⟩
    haveI : IsTrans HourlyActivity hourAsc := ⟨hourAsc_trans⟩
    exact List.sorted_insertionSort hourAsc _
  · intro rows
    haveI : IsTotal HourlyActivity hourDescTracker := ⟨hourDescTracker_total⟩
    haveI : IsTrans HourlyActivity hourDescTracker := ⟨hourDescTracker_trans⟩
    exact List.sorted_insertionSort hourDescTracker _

/-- C6 counterexample: `getTrackerHourlyActivity` output is not ascending by
bucket key — two rows one hour apart come back with the later hour first. -/
theorem C6_output_ordering_counterexample :
    ¬ (getTrackerHourlyActivity
        [⟨0, "app.exe", 10⟩, ⟨3600000, "app.exe", 20⟩]).Sorted hourAsc := by
  decide

theorem extractDomainL_stages (d : List Char) :
    extractDomainL d =
      cleanupLabel (parenSegment (delimiterSegment (stripBrowserSuffix d))) := rfl

/-- C7 (amended): the normalizer strips a trailing browser suffix; takes the
segment after the last `" | "`, else after the last `" - "`; then — also when
a delimiter rule fired — replaces a title ending in a parenthesized group by
the parenthesized content; strips protocol/`www.` and trailing path; empty
maps to `"Unknown"`. -/
theorem C7_extract_domain (windowTitle : String) :
    extractDomain windowTitle = extractDomainSpec windowTitle := by
  simp only [extractDomain, extractDomainSpec, extractDomainL_stages]

/-- C7 counterexample: on `"Site | Docs (v2)"` the code applies the
parenthesized-group rule to the segment selected by the `" | "` rule and
returns `"v2"`, while the claim (parenthesized rule only when neither
delimiter is present) predicts `"Docs (v2)"`. -/
theorem C7_extract_domain_counterexample :
    extractDomainClaim "Site | Docs (v2)" ≠ extractDomain "Site | Docs (v2)" := by
  decide

theorem closeSession_mem {activityLog : List ActivityLogRow}
    {sessions : List FocusSession} {current : CurrentSession} {s : FocusSession}
    (hs : s ∈ closeSession activityLog sessions current) :
    s ∈ sessions ∨
      (600 ≤ s.duration ∧
        s.duration = ((s.endTime - s.startTime : ℤ) : ℚ) / 1000) := by
  simp only [closeSession] at hs
  split_ifs at hs with hd
  · rw [List.mem_append] at hs
    rcases hs with hs | hs
    · exact Or.inl hs
    · rw [List.mem_singleton] at hs
      subst hs
      exact Or.inr ⟨hd, rfl⟩
  · exact Or.inl hs

theorem focus_fold_inv (maxGapMs : ℤ) (activityLog : List ActivityLogRow) :
    ∀ (metrics : List InputMetric)
      (state : List FocusSession × Option CurrentSession),
    (∀ s ∈ state.1, 600 ≤ s.duration ∧
      s.duration = ((s.endTime - s.startTime : ℤ) : ℚ) / 1000) →
    ∀ s ∈ (metrics.foldl (focusStep maxGapMs activityLog) state).1,
      600 ≤ s.duration ∧ s.duration = ((s.endTime - s.startTime : ℤ) : ℚ) / 1000
  | [], state, hinv => by simpa using hinv
  | m :: ms, state, hinv => by
    rw [List.foldl_cons]
    apply focus_fold_inv maxGapMs activityLog ms
    intro s hs
    obtain ⟨sessions, cur⟩ := state
    cases cur with
    | none => exact hinv s hs
    | some c =>
      simp only [focusStep] at hs
      split_ifs at hs
      · exact hinv s hs
      · rcases closeSession_mem hs with h | h
        · exact hinv s h
        · exact h

theorem detectSessions_prop (maxGapMs : ℤ) (activityLog : List ActivityLogRow)
    (metrics : List InputMetric) :
    ∀ s ∈ detectSessions maxGapMs activityLog metrics,
      600 ≤ s.duration ∧
        s.duration = ((s.endTime - s.startTime : ℤ) : ℚ) / 1000 := by
  intro s hs
  simp only [detectSessions, List.mem_insertionSort] at hs
  have hfold := focus_fold_inv maxGapMs activityLog metrics ([], none) (by simp)
  cases hcur : (metrics.foldl (focusStep maxGapMs activityLog) ([], none)).2 with
  | none =>
    rw [hcur] at hs
    exact hfold s hs
  | some c =>
    rw [hcur] at hs
    rcases closeSession_mem hs with h | h
    · exact hfold s h
    · exact h

unseal Rat.mul Rat.inv Rat.add Rat.sub in
/-- C5: with `maxGapSeconds = 300` and `minSessionSeconds = 600`: a sample
extends the current session exactly when its timestamp minus the current end
is at most the gap threshold (accumulating its keystrokes); a larger gap
closes the current session — emitted only when its span is at least the
minimum — and starts a new one.  Samples at t=0 s and t=250 s merge into one
candidate session under `maxGapSeconds = 300` but form two under
`maxGapSeconds = 200`, each discarded as under the minimum. -/
theorem C5_focus_session_detector :
    (∀ (activityLog : List ActivityLogRow) (sessions : List FocusSession)
        (current : CurrentSession) (metric : InputMetric),
      focusStep 300000 activityLog (sessions, some current) metric =
        if metric.timestamp - current.stop ≤ 300000 then
          (sessions, some ⟨current.start, metric.timestamp,
            current.keystrokes + metric.keyPresses⟩)
        else
          (closeSession activityLog sessions current,
            some ⟨metric.timestamp, metric.timestamp, metric.keyPresses⟩)) ∧
    (∀ (maxGapMs : ℤ) (activityLog : List ActivityLogRow)
        (metrics : List InputMetric) (s : FocusSession),
      s ∈ detectSessions maxGapMs activityLog metrics → 600 ≤ s.duration) ∧
    (([⟨0, 1⟩, ⟨250000, 2⟩] : List InputMetric).foldl
        (focusStep 300000 []) ([], none) = ([], some ⟨0, 250000, 3⟩)) ∧
    (([⟨0, 1⟩, ⟨250000, 2⟩] : List InputMetric).foldl
        (focusStep 200000 []) ([], none) = ([], some ⟨250000, 250000, 2⟩)) ∧
    getFocusSessions [] [⟨0, 1⟩, ⟨250000, 2⟩] = [] ∧
    detectSessions 200000 [] [⟨0, 1⟩, ⟨250000, 2⟩] = [] := by
  refine ⟨?_, ?_, by decide, by decide, by decide, by decide⟩
  · intro activityLog sessions current metric
    rfl
  · intro maxGapMs activityLog metrics s hs
    exact (detectSessions_prop maxGapMs activityLog metrics s hs).1

unseal Rat.mul Rat.inv Rat.add Rat.sub in
theorem C5_focus_session_detector_witness :
    (600 : ℚ) ≤ (⟨0, 600000, 600, 6, []⟩ : FocusSession).duration :=
  C5_focus_session_detector.2.1 300000 [] [⟨0, 1⟩, ⟨300000, 2⟩, ⟨600000, 3⟩]
    ⟨0, 600000, 600, 6, []⟩ (by decide)

/-- C10: every emitted focus session has `endTime` strictly after
`startTime`: its duration is the last minus the first sample timestamp (in
seconds), and the 600-second minimum filter forces a positive span; in
particular a single isolated sample yields a zero-duration candidate that is
always discarded. -/
theorem C10_session_positive_span (activityLog : List ActivityLogRow)
    (metrics : List InputMetric) :
    (∀ s ∈ getFocusSessions activityLog metrics,
      s.duration = ((s.endTime - s.startTime : ℤ) : ℚ) / 1000 ∧
        s.startTime < s.endTime) ∧
    (∀ t k : ℤ, getFocusSessions activityLog [⟨t, k⟩] = []) := by
  constructor
  · intro s hs
    obtain ⟨hd600, hdeq⟩ := detectSessions_prop _ _ _ s hs
    refine ⟨hdeq, ?_⟩
    rw [hdeq] at hd600
    have h2 : (600 : ℚ) * 1000 ≤ ((s.endTime - s.startTime : ℤ) : ℚ) :=
      (le_div_iff₀ (by norm_num)).mp hd600
    have h3 : (600000 : ℤ) ≤ s.endTime - s.startTime := by exact_mod_cast h2
    omega
  · intro t k
    simp [getFocusSessions, detectSessions, focusStep, closeSession]

unseal Rat.mul Rat.inv Rat.add Rat.sub in
theorem C10_session_positive_span_witness :
    (⟨0, 600000, 600, 6, []⟩ : FocusSession) ∈
        getFocusSessions [] [⟨0, 1⟩, ⟨300000, 2⟩, ⟨600000, 3⟩] ∧
    (600 : ℚ) = ((600000 - 0 : ℤ) : ℚ) / 1000 ∧ (0 : ℤ) < 600000 := by
  have h := (C10_session_positive_span [] [⟨0, 1⟩, ⟨300000, 2⟩, ⟨600000, 3⟩]).1
    ⟨0, 600000, 600, 6, []⟩ (by decide)
  exact ⟨by decide, h.1, h.2⟩

end Tracker
